import Mathlib

/-!
# Verification of the scikit-activeml query-strategy core

A shallow embedding of the batch-selection engine (`simple_batch`), the
Expected Error Reduction strategy (`_expected_error.py`) and the
sub-sampling wrapper (`_wrapper.py`), together with proofs of the
specification claims about them.

Modelling conventions:
* floating-point values are modelled by the rationals; `NaN` is modelled by
  `none` in the type `Val := Option ℚ`;
* in-place mutation of a numpy array (as `simple_batch` performs on its
  `utilities` argument) is modelled by returning the post-call state of the
  array alongside the ordinary return values;
* `warnings.warn` is modelled by a boolean flag in the return value;
* a raised exception is modelled by `Except PyErr`;
* a seeded `np.random.RandomState` is modelled by `RNG`: a seed together
  with a counter of the draws made so far; the draw stream is an abstract
  deterministic function of seed and counter.
-/

set_option autoImplicit false

namespace Skactiveml

/-- A float value: `none` models `NaN`, `some q` a finite value. -/
abbrev Val := Option ℚ

/-- Python exception kinds distinguished by the spec claims. -/
inductive PyErr
  | typeError
  | valueError
  deriving DecidableEq, Repr

/-- Deterministic random source modelling a seeded `np.random.RandomState`:
a seed plus a counter of draws made so far. -/
structure RNG where
  seed : ℕ
  ctr : ℕ
  deriving DecidableEq, Repr

/-- The next natural produced by the random stream.  The concrete mixing
function is irrelevant to the claims; it only matters that it is a
deterministic function of seed and counter. -/
def RNG.draw (g : RNG) : ℕ := g.seed + g.ctr

/-- Advance the random source by one draw. -/
def RNG.next (g : RNG) : RNG := ⟨g.seed, g.ctr + 1⟩

/-- `nth u i` is entry `i` of the array (`none` = `NaN`), `none` out of range. -/
def nth (u : List Val) (i : ℕ) : Val := u.getD i none

/-- Number of non-`NaN` entries (`np.sum(~np.isnan(utilities))`). -/
def nonNanCount : List Val → ℕ
  | [] => 0
  | v :: u => (if v.isSome then 1 else 0) + nonNanCount u

/-- The finite (non-`NaN`) values of a utility array. -/
def finiteVals (u : List Val) : List ℚ := u.filterMap id

/-- Maximum of a list of rationals, `none` on the empty list. -/
def listMax : List ℚ → Option ℚ
  | [] => none
  | x :: xs => some (xs.foldl max x)

/-- Positions holding the maximal non-`NaN` value: the tie set of
`np.nanargmax`. -/
def argmaxTies (u : List Val) : List ℕ :=
  match listMax (finiteVals u) with
  | none => []
  | some m => (List.range u.length).filter (fun i => nth u i = some m)

/-- Modelled from the spec: the random tie-break arg-max selector
(`skactiveml.utils.rand_argmax`, whose source file is not part of this
snapshot).  It returns the position of the maximum value, choosing among
tied positions by a draw from the random source (hence uniformly for a
uniform stream), excludes `NaN` positions, is deterministic for a fixed
seed, and fails (`none`) when every entry is `NaN`. -/
def rand_argmax (u : List Val) (g : RNG) : Option (ℕ × RNG) :=
  match (argmaxTies u).get? (g.draw % (argmaxTies u).length) with
  | none => none
  | some i => some (i, g.next)

/-- The selection loop of `simple_batch` (`_functions.py`, lines 84-87):
returns the selected indices, the recorded utility rows (each row is the
array state *before* masking that step's pick), and the final state of the
`utilities` array after all in-place `NaN` assignments. -/
def simple_batch_loop : ℕ → List Val → RNG → List ℕ × List (List Val) × List Val
  | 0, u, _ => ([], [], u)
  | b + 1, u, g =>
    match rand_argmax u g with
    | none => ([], [], u)
    | some (i, g2) =>
      let rest := simple_batch_loop b (u.set i none) g2
      (i :: rest.1, u :: rest.2.1, rest.2.2)

/-- `simple_batch` (`_functions.py`, lines 41-95) for an already-validated
`batch_size`.  Returns `(best_indices, batch_utilities, final utilities
array, warned)`; `warned` records the `warnings.warn` call made when
`batch_size` exceeds the number of non-`NaN` entries, in which case
`batch_size` is shrunk to that count. -/
def simple_batch (u : List Val) (g : RNG) (batch_size : ℕ) :
    List ℕ × List (List Val) × List Val × Bool :=
  let m := nonNanCount u
  let warned := decide (m < batch_size)
  let r := simple_batch_loop (min batch_size m) u g
  (r.1, r.2.1, r.2.2, warned)

/-- `simple_batch` including the `check_scalar(batch_size, min_val=1)`
validation, which raises `ValueError` for `batch_size < 1`. -/
def simple_batch_checked (u : List Val) (g : RNG) (batch_size : ℤ) :
    Except PyErr (List ℕ × List (List Val) × List Val × Bool) :=
  if batch_size < 1 then .error .valueError
  else .ok (simple_batch u g batch_size.toNat)

/-! ### Expected Error Reduction (`_expected_error.py`) -/

/-- A feature or probability matrix: a list of rows. -/
abbrev Mat := List (List ℚ)

/-- Entry `(i, j)` of a matrix, `0` out of range (all accesses made by the
embedded code are in range for conforming inputs). -/
def mget (M : Mat) (i j : ℕ) : ℚ := (M.getD i []).getD j 0

/-- An external classifier model as used by `expected_error_reduction`:
`clone(clf)`, `clf.fit(X, y)` and `clf.predict_proba(Xq)` are modelled
together by the single pure function `pp X y Xq`, the posterior matrix of a
fresh clone fitted on `(X, y)` and evaluated on the rows of `Xq`
(sklearn cloning makes every refit start from an unfitted copy, so fitting
carries no hidden state).  Labels are `Val`s: `none` is the missing-label
sentinel `np.nan`, matching `is_labeled(y, clf.missing_label)`. -/
structure Clf where
  pp : Mat → List Val → Mat → Mat

/-- The `emr` cost (`_expected_error.py`, line 164):
`np.sum((P_new.T[:, None] * P_new.T).T * C)`, which by numpy broadcasting
equals `Σ_k Σ_b Σ_a P_new[k, a] · P_new[k, b] · C[b, a]`. -/
def emr_cost (C P_new : Mat) (n_classes : ℕ) : ℚ :=
  ((List.range P_new.length).map (fun k =>
    ((List.range n_classes).map (fun b =>
      ((List.range n_classes).map (fun a =>
        mget P_new k a * mget P_new k b * mget C b a)).sum)).sum)).sum

/-- The `log_loss` cost (line 177): `-np.sum(P_new * np.log(P_new + eps))`.
`logf` is the abstract real logarithm and `eps` the machine epsilon, both
passed in as parameters of the real-arithmetic model. -/
def log_loss_cost (logf : ℚ → ℚ) (eps : ℚ) (P_new : Mat) (n_classes : ℕ) : ℚ :=
  -(((List.range P_new.length).map (fun k =>
    ((List.range n_classes).map (fun c =>
      mget P_new k c * logf (mget P_new k c + eps))).sum)).sum)

/-- Positions of the labeled samples: `is_labeled(y, missing_label)`. -/
def labeledIndices (y : List Val) : List ℕ :=
  (List.range y.length).filter (fun j => (y.getD j none).isSome)

/-- The `csl` cost (lines 165-174): the refit model's posterior on the
already-labeled samples, weighted entrywise by each labeled sample's true
class row of `C` (`np.sum(clf.predict_proba(X_labeled) * C[y_indices])`),
and `0` when no labeled samples exist.  `Xa, ya` is the augmented training
set the clone was refitted on. -/
def csl_cost (clf : Clf) (Xa : Mat) (ya : List Val) (X : Mat) (y : List Val)
    (classes : List ℚ) (C : Mat) : ℚ :=
  let lids := labeledIndices y
  let X_lab := lids.map (fun j => X.getD j [])
  let y_idx := lids.map (fun j => classes.indexOf ((y.getD j none).getD 0))
  if 0 < X_lab.length then
    ((List.range X_lab.length).map (fun j =>
      ((List.range classes.length).map (fun c =>
        mget (clf.pp Xa ya X_lab) j c * mget C (y_idx.getD j 0) c)).sum)).sum
  else 0

/-- The per-hypothesis risk of the inner loop (lines 161-180): the clone is
refitted on `(X ++ [x], y ++ [lab])` and the method's cost is computed.
The caller supplies the appended hypothetical label `lab`; the code passes
the class position `yi` itself.  (The unreachable `else` branch raises in
Python; `query` validates `method` beforehand.) -/
def eer_cost (logf : ℚ → ℚ) (eps : ℚ) (clf : Clf) (X_cand X : Mat) (y : List Val)
    (classes : List ℚ) (C : Mat) (method : String) (x : List ℚ) (lab : Val) : ℚ :=
  if method = "emr" then
    emr_cost C (clf.pp (X ++ [x]) (y ++ [lab]) X_cand) classes.length
  else if method = "csl" then
    csl_cost clf (X ++ [x]) (y ++ [lab]) X y classes C
  else if method = "log_loss" then
    log_loss_cost logf eps (clf.pp (X ++ [x]) (y ++ [lab]) X_cand) classes.length
  else 0

/-- The body of the outer loop over candidates (lines 159-182): write each
class's weighted risk `f i yi` into the reused `errors_per_class` buffer
(`st.2`), then write the buffer's sum into `errors[i]` (`st.1`). -/
def eer_step (ncl : ℕ) (f : ℕ → ℕ → ℚ) (st : List ℚ × List ℚ) (i : ℕ) :
    List ℚ × List ℚ :=
  let epc := (List.range ncl).foldl (fun b yi => b.set yi (f i yi)) st.2
  (st.1.set i epc.sum, epc)

/-- `expected_error_reduction` (lines 147-183) for an already-validated
`method` and compatible shapes.  `errors = np.zeros(len(X_cand))` and
`errors_per_class = np.zeros(n_classes)` are the two numpy buffers; the
hypothetical label appended for class position `yi` is the *index* `yi`
itself (`np.append(y, [[yi]])`), not the class value `classes[yi]`; the
result is `-errors`. -/
def expected_error_reduction (logf : ℚ → ℚ) (eps : ℚ) (clf : Clf)
    (X_cand X : Mat) (y : List Val) (classes : List ℚ) (C : Mat)
    (method : String) : List ℚ :=
  let P := clf.pp X y X_cand
  (((List.range X_cand.length).foldl
    (eer_step classes.length (fun i yi =>
      mget P i yi *
        eer_cost logf eps clf X_cand X y classes C method
          (X_cand.getD i []) (some (yi : ℚ))))
    (List.replicate X_cand.length 0, List.replicate classes.length 0)).1).map
    (fun e => -e)

/-- `expected_error_reduction` including the feature-compatibility check of
lines 147-150, which raises `ValueError` on mismatched feature counts. -/
def expected_error_reduction_checked (logf : ℚ → ℚ) (eps : ℚ) (clf : Clf)
    (X_cand X : Mat) (y : List Val) (classes : List ℚ) (C : Mat)
    (method : String) : Except PyErr (List ℚ) :=
  if 0 < X.length ∧ 0 < X_cand.length ∧
      (X.getD 0 []).length ≠ (X_cand.getD 0 []).length then
    .error .valueError
  else
    .ok (expected_error_reduction logf eps clf X_cand X y classes C method)

/-- The claim's reading of step 3: for candidate `i` and hypothetical label
`y_h = classes[yi]`, refit on `(X ++ [x_i], y ++ [classes[yi]])`, weight the
risk by `P[i, yi]`, sum over labels, negate. -/
def eer_append_class_label (logf : ℚ → ℚ) (eps : ℚ) (clf : Clf)
    (X_cand X : Mat) (y : List Val) (classes : List ℚ) (C : Mat)
    (method : String) : List ℚ :=
  (List.range X_cand.length).map (fun i =>
    -(((List.range classes.length).map (fun yi =>
      mget (clf.pp X y X_cand) i yi *
        eer_cost logf eps clf X_cand X y classes C method
          (X_cand.getD i []) (some (classes.getD yi 0)))).sum))

/-- The amended reading: identical, except that the appended hypothetical
label is the class *position* `yi`, exactly as the code's
`np.append(y, [[yi]])`. -/
def eer_append_class_index (logf : ℚ → ℚ) (eps : ℚ) (clf : Clf)
    (X_cand X : Mat) (y : List Val) (classes : List ℚ) (C : Mat)
    (method : String) : List ℚ :=
  (List.range X_cand.length).map (fun i =>
    -(((List.range classes.length).map (fun yi =>
      mget (clf.pp X y X_cand) i yi *
        eer_cost logf eps clf X_cand X y classes C method
          (X_cand.getD i []) (some (yi : ℚ)))).sum))

/-- The classifier of the C1 counterexample: its posterior depends on
whether the training labels contain the class value `5`. -/
def clfC1 : Clf :=
  ⟨fun _X yTrain Xq =>
    Xq.map (fun _ => if (some (5 : ℚ)) ∈ yTrain then [1, 0] else [1/2, 1/2])⟩

/-- The spec's wording of the `csl` risk: the refit model's cost-weighted
posterior summed over only the already-labeled samples, using each labeled
sample's true class row of `C`.  `Xa, ya` is the augmented training set the
clone was refitted on. -/
def csl_risk_spec (clf : Clf) (Xa : Mat) (ya : List Val) (X : Mat) (y : List Val)
    (classes : List ℚ) (C : Mat) : ℚ :=
  ((List.range (labeledIndices y).length).map (fun p =>
    ((List.range classes.length).map (fun c =>
      mget (clf.pp Xa ya ((labeledIndices y).map (fun j => X.getD j []))) p c *
        mget C
          (classes.indexOf ((y.getD ((labeledIndices y).getD p 0) none).getD 0))
          c)).sum)).sum

/-! ### `ExpectedErrorReduction.query` definitions -/

/-- The state of a `random_state` attribute: an integer seed not yet
converted, or an instantiated generator.  `sklearn.utils.check_random_state`
(external library contract) turns a seed into a fresh generator and returns
an existing generator object unchanged. -/
inductive RSState
  | seed (n : ℕ)
  | gen (g : RNG)
  deriving DecidableEq, Repr

/-- `sklearn.utils.check_random_state` (external library contract). -/
def checkRandomState : RSState → RNG
  | .seed n => ⟨n, 0⟩
  | .gen g => g

/-- The attributes of an `ExpectedErrorReduction` object that `query` reads
or writes: `clf_is_cfe` models the `isinstance(self.clf,
ClassFrequencyEstimator)` capability probe and `clf_classes` models
`self.clf.classes`; the classifier's fitting behaviour itself is passed to
`eer_query` separately as a `Clf`. -/
structure EER where
  clf_is_cfe : Bool
  clf_classes : List ℚ
  classes : List ℚ
  method : String
  C : Option Mat
  rs : RSState
  deriving DecidableEq, Repr

/-- Modelled from the spec: `check_classifier_params(classes, missing_label,
C)` (`skactiveml.utils`, source not in this snapshot) validates the
classifier parameters; per spec section 7 a bad cost-matrix shape is a
`ValueError` configuration error, so the model checks that `C`, when given,
is square over `classes`. -/
def check_classifier_params (classes : List ℚ) (C : Option Mat) :
    Except PyErr Unit :=
  match C with
  | none => .ok ()
  | some M =>
      if M.length = classes.length ∧ ∀ row ∈ M, row.length = classes.length then
        .ok ()
      else .error .valueError

/-- `1 - np.eye(n)`: the default cost matrix resolved at line 90. -/
def oneMinusEye (n : ℕ) : Mat :=
  (List.range n).map (fun i => (List.range n).map (fun j => if i = j then 0 else 1))

/-- `ExpectedErrorReduction.query` (lines 59-113): validations in source
order — capability probe (`TypeError`), `check_classifier_params`, classes
comparison (`ValueError`), `self.C` defaulting, method name check
(`ValueError`) — then `self.random_state = check_random_state(...)`, the
shape check of `expected_error_reduction`, the utilities, and the
tie-broken arg-max (`rand_argmax([utilities], self.random_state, axis=1)`).
Returns the singleton index batch, the utilities row, and the post-call
attribute state: `self.C` now holds the resolved matrix and
`self.random_state` the instantiated and advanced generator. -/
def eer_query (s : EER) (logf : ℚ → ℚ) (eps : ℚ) (clf : Clf)
    (X_cand X : Mat) (y : List Val) :
    Except PyErr (List ℕ × List ℚ × EER) :=
  if s.clf_is_cfe = false then .error .typeError
  else match check_classifier_params s.classes s.C with
  | .error e => .error e
  | .ok _ =>
    if s.clf_classes ≠ s.classes then .error .valueError
    else
      let C := match s.C with
        | none => oneMinusEye s.classes.length
        | some M => M
      if s.method ∉ (["emr", "csl", "log_loss"] : List String) then
        .error .valueError
      else
        let g := checkRandomState s.rs
        if 0 < X.length ∧ 0 < X_cand.length ∧
            (X.getD 0 []).length ≠ (X_cand.getD 0 []).length then
          .error .valueError
        else
          let utilities :=
            expected_error_reduction logf eps clf X_cand X y s.classes C s.method
          match rand_argmax (utilities.map some) g with
          | none => .error .valueError
          | some (j, g2) =>
              .ok ([j], utilities, { s with C := some C, rs := .gen g2 })

/-! ### `SubSamplingWrapper` definitions (`_wrapper.py`) -/

/-- The three legal forms of the `candidates` argument: `None`, an index
array into `X`, or a standalone feature matrix. -/
inductive Cands
  | all
  | idx (l : List ℕ)
  | feat (M : Mat)
  deriving DecidableEq, Repr

/-- The `max_candidates` parameter: an `int`, a `float`, or a value of any
other type (rejected with `TypeError`). -/
inductive MaxCand
  | int (n : ℤ)
  | float (q : ℚ)
  | invalid
  deriving DecidableEq, Repr

/-- Positions of the unlabeled samples (`unlabeled_indices(y, missing_label)`). -/
def unlabeledIndices (y : List Val) : List ℕ :=
  (List.range y.length).filter (fun j => (y.getD j none).isNone)

/-- `is_labeled(y, missing_label).sum()`. -/
def labeledCount (y : List Val) : ℕ := (labeledIndices y).length

/-- Remove the element at position `j` (identity when out of range). -/
def removeAt {α : Type _} : List α → ℕ → List α
  | [], _ => []
  | _ :: xs, 0 => xs
  | x :: xs, j + 1 => x :: removeAt xs j

/-- Modelled from the external numpy API:
`random_state.choice(a, size=k, replace=False)` draws `k` elements without
replacement; each pick is determined by the next value of the deterministic
random stream. -/
def choiceWR {α : Type _} : RNG → List α → ℕ → List α × RNG
  | g, _, 0 => ([], g)
  | g, pool, k + 1 =>
    match pool.get? (g.draw % pool.length) with
    | none => ([], g)
    | some x =>
      let r := choiceWR g.next (removeAt pool (g.draw % pool.length)) k
      (x :: r.1, r.2)

/-- Modelled from the spec: `skactiveml.utils.check_random_state(random_state,
seed_multiplier)` (source not in this snapshot) deep-copies the stored
random state and derives from it and the multiplier a fresh,
deterministically seeded generator; the stored state is not consumed
(spec sections 4.6 step 2 and 5). -/
def deriveRNG : RSState → ℕ → RNG
  | .seed n, m => ⟨(n + 1) * m, 0⟩
  | .gen g, m => ⟨(g.seed + g.ctr + 1) * m, 0⟩

/-- Resolve `max_candidates` against a pool of `poolLen` candidates
(`_wrapper.py`, lines 153-157 and 162-164): a float fraction becomes
`ceil(poolLen * frac)`, then the value is clipped with `min` to the pool
size.  No warning is emitted anywhere in this function. -/
def resolveMaxCand (mc : MaxCand) (poolLen : ℕ) : ℕ :=
  match mc with
  | .int n => min n.toNat poolLen
  | .float q => min (Int.toNat ⌈(poolLen : ℚ) * q⌉) poolLen
  | .invalid => 0

/-- The sub-sampling step (lines 149-174): resolve the candidate pool, draw
`min(max_candidates, pool size)` of it without replacement, and — for a
2-D `candidates` matrix — remember the drawn row positions
(`new_candidate_indices`). -/
def ssw_subsample (g : RNG) (mc : MaxCand) (y : List Val) (cands : Cands) :
    Cands × List ℕ :=
  match cands with
  | .all =>
    let ci := unlabeledIndices y
    (.idx (choiceWR g ci (resolveMaxCand mc ci.length)).1, [])
  | .idx l =>
    (.idx (choiceWR g l (resolveMaxCand mc l.length)).1, [])
  | .feat M =>
    let sel := (choiceWR g (List.range M.length) (resolveMaxCand mc M.length)).1
    (.feat (sel.map (fun j => M.getD j [])), sel)

/-- Embed one sub-sample utility row back into a `NaN`-filled full-width row
(lines 195-198): `new_utilities[:, new_candidate_indices] = utilities`. -/
def scatterCols (k : ℕ) (sel : List ℕ) (row : List Val) : List Val :=
  (List.range k).map (fun j =>
    if j ∈ sel then row.getD (sel.indexOf j) none else none)

/-- The attributes of a `SubSamplingWrapper` object read by `query`:
`qs_is_pool` models the `isinstance(self.query_strategy,
SingleAnnotatorPoolQueryStrategy)` probe. -/
structure SSW where
  qs_is_pool : Bool
  max_candidates : MaxCand
  rs : RSState
  deriving DecidableEq, Repr

/-- The wrapper's return value: indices in the caller's frame, optional
utility rows, and the flag recording whether a warning was emitted (the
source contains no `warnings.warn`, so it is always `false`). -/
structure SSWOut where
  indices : List ℕ
  utils : Option (List (List Val))
  warned : Bool
  deriving DecidableEq, Repr

/-- An inner query strategy as the wrapper sees it: from `X`, `y`, the
candidates handed down, `batch_size` and `return_utilities` it computes
selected indices and (when asked) utility rows.  Indices refer to `X` when
the candidates are indices, and to sub-sample positions when the candidates
are a feature matrix. -/
abbrev Inner :=
  Mat → List Val → Cands → ℕ → Bool → List ℕ × Option (List (List Val))

/-- `SubSamplingWrapper.query` after validation (lines 120-201): derive the
per-call generator from the stored state and the labeled count, sub-sample,
delegate to the inner strategy, and post-process: for a 2-D `candidates`
matrix translate indices through `new_candidate_indices` and embed the
utility rows into full-width `NaN`-filled rows; otherwise pass the inner
result through.  `query` assigns no attribute, so the post-call object
state is returned unchanged. -/
def ssw_query_go (s : SSW) (inner : Inner) (X : Mat) (y : List Val)
    (cands : Cands) (batch_size : ℕ) (return_utilities : Bool) :
    SSWOut × SSW :=
  let g := deriveRNG s.rs (labeledCount y + 1)
  let sub := ssw_subsample g s.max_candidates y cands
  let r := inner X y sub.1 batch_size return_utilities
  if return_utilities = false then
    match cands with
    | .feat _ => (⟨r.1.map (fun q => sub.2.getD q 0), none, false⟩, s)
    | _ => (⟨r.1, none, false⟩, s)
  else
    match r.2 with
    | none => (⟨r.1, none, false⟩, s)
    | some utils =>
      match cands with
      | .feat M =>
        (⟨r.1.map (fun q => sub.2.getD q 0),
          some (utils.map (scatterCols M.length sub.2)), false⟩, s)
      | _ => (⟨r.1, some utils, false⟩, s)

/-- `SubSamplingWrapper.query` (lines 51-201) including the validations of
lines 113-146: the inner strategy's type probe (`TypeError`) and the
`max_candidates` type and range checks (`TypeError` / `ValueError`). -/
def ssw_query (s : SSW) (inner : Inner) (X : Mat) (y : List Val)
    (cands : Cands) (batch_size : ℕ) (return_utilities : Bool) :
    Except PyErr (SSWOut × SSW) :=
  if s.qs_is_pool = false then .error .typeError
  else
    match s.max_candidates with
    | .invalid => .error .typeError
    | .int n =>
      if n < 1 then .error .valueError
      else .ok (ssw_query_go s inner X y cands batch_size return_utilities)
    | .float q =>
      if 0 < q ∧ q ≤ 1 then
        .ok (ssw_query_go s inner X y cands batch_size return_utilities)
      else .error .valueError

/-- The size of the candidate pool that `SubSamplingWrapper.query` resolves
for each form of `candidates`. -/
def poolSize (y : List Val) : Cands → ℕ
  | .all => (unlabeledIndices y).length
  | .idx l => l.length
  | .feat M => M.length

/-- The number of candidates a `Cands` value holds. -/
def candsLen : Cands → ℕ
  | .all => 0
  | .idx l => l.length
  | .feat M => M.length

/-- A concrete inner strategy used in witnesses and counterexamples: score
each candidate row by the sum of its features and reduce with
`simple_batch`. -/
def innerSum : Inner := fun _X _y c b _ru =>
  match c with
  | .feat M =>
    let r := simple_batch (M.map (fun row => some row.sum)) ⟨0, 0⟩ b
    (r.1, some r.2.1)
  | .idx l => (l.take b, none)
  | .all => ([], none)

/-! ### Core-Set / k-greedy-center (spec-modelled; claim C9) -/

/-- Modelled from the spec: squared Euclidean distance, the
(monotone-equivalent) distance measure of the Core-Set strategy, whose
source file (`_core_set.py`) is not part of this snapshot; the square root
leaves the rationals but preserves order and non-negativity. -/
def sqDist (a b : List ℚ) : ℚ := ((a.zip b).map (fun p => (p.1 - p.2) ^ 2)).sum

/-- Modelled from the spec: distance from `x` to its nearest point of the
reference set `R` (`0` for an empty reference set). -/
def minDistTo (x : List ℚ) : Mat → ℚ
  | [] => 0
  | r :: rs => (rs.map (sqDist x)).foldl min (sqDist x r)

/-- Modelled from the spec (section 4.5): one Core-Set utility vector over
all samples — `NaN` at ineligible positions (labeled or already selected),
distance to the nearest reference point at eligible candidates. -/
def coreSetUtilities (X : Mat) (elig : List Bool) (R : Mat) : List Val :=
  (List.range X.length).map (fun i =>
    if elig.getD i false then some (minDistTo (X.getD i []) R) else none)

/-- Modelled from the spec: the k-greedy-center loop — `batch_size` times:
compute utilities, pick the tie-broken arg-max, add the pick to the
reference set and mark it ineligible.  Returns the selected indices and the
utility rows. -/
def coreSetLoop : ℕ → Mat → List Bool → Mat → RNG → List ℕ × List (List Val)
  | 0, _, _, _, _ => ([], [])
  | b + 1, X, elig, R, g =>
    let u := coreSetUtilities X elig R
    match rand_argmax u g with
    | none => ([], [])
    | some (i, g2) =>
      let rest := coreSetLoop b X (elig.set i false) (R ++ [X.getD i []]) g2
      (i :: rest.1, u :: rest.2)

/-- Modelled from the spec: `CoreSet.query` — the reference set starts as
the labeled rows of `X`, the eligible positions are the unlabeled ones. -/
def coreSetQuery (X : Mat) (y : List Val) (batch_size : ℕ) (g : RNG) :
    List ℕ × List (List Val) :=
  coreSetLoop batch_size X (y.map (fun lab => lab.isNone))
    ((labeledIndices y).map (fun j => X.getD j [])) g

/-- A constant-posterior classifier (every candidate gets `[1/2, 1/2]`),
producing tied utilities in the determinism counterexample. -/
def clfHalf : Clf := ⟨fun _ _ Xq => Xq.map (fun _ => [1/2, 1/2])⟩

/-- A classifier whose posterior depends on the training labels and the
query row, producing a unique arg-max in the determinism witness. -/
def clfStep : Clf :=
  ⟨fun _ y Xq =>
    Xq.map (fun r => if (some (0 : ℚ)) ∈ y ∨ r = [0] then [1, 0] else [0, 1])⟩

/-! ### Basic facts about `nth`, `List.set`, `nonNanCount` and the arg-max -/

theorem nth_le_length {u : List Val} {j : ℕ} (h : u.length ≤ j) : nth u j = none := by
  induction u generalizing j with
  | nil => rfl
  | cons a u ih =>
    cases j with
    | zero => simp at h
    | succ j => exact ih (Nat.le_of_succ_le_succ h)

theorem nth_set_self {u : List Val} {i : ℕ} (h : i < u.length) (v : Val) :
    nth (u.set i v) i = v := by
  induction u generalizing i with
  | nil => simp at h
  | cons a u ih =>
    cases i with
    | zero => rfl
    | succ i => exact ih (Nat.lt_of_succ_lt_succ h)

theorem nth_set_ne {u : List Val} {i j : ℕ} (h : j ≠ i) (v : Val) :
    nth (u.set i v) j = nth u j := by
  induction u generalizing i j with
  | nil => rfl
  | cons a u ih =>
    cases i with
    | zero =>
      cases j with
      | zero => exact absurd rfl h
      | succ j => rfl
    | succ i =>
      cases j with
      | zero => rfl
      | succ j => exact ih (fun hh => h (by rw [hh]))

theorem nonNanCount_set_none {u : List Val} {i : ℕ} {q : ℚ} (h : nth u i = some q) :
    nonNanCount (u.set i none) + 1 = nonNanCount u := by
  induction u generalizing i with
  | nil => simp [nth] at h
  | cons a u ih =>
    cases i with
    | zero =>
      have ha : a = some q := h
      subst ha
      simp [nonNanCount]
      omega
    | succ i =>
      have h2 : nth u i = some q := h
      have h3 := ih h2
      simp only [List.set, nonNanCount]
      omega

theorem exists_some_of_nonNanCount_pos {u : List Val} (h : 0 < nonNanCount u) :
    ∃ q : ℚ, some q ∈ u := by
  induction u with
  | nil => simp [nonNanCount] at h
  | cons a u ih =>
    cases a with
    | some q => exact ⟨q, List.mem_cons_self _ _⟩
    | none =>
      have h2 : 0 < nonNanCount u := by simpa [nonNanCount] using h
      obtain ⟨q, hq⟩ := ih h2
      exact ⟨q, List.mem_cons_of_mem _ hq⟩

theorem nth_of_mem {u : List Val} {v : Val} (h : v ∈ u) :
    ∃ i, i < u.length ∧ nth u i = v := by
  induction u with
  | nil => cases h
  | cons a u ih =>
    rcases List.mem_cons.mp h with h1 | h1
    · exact ⟨0, Nat.succ_pos _, h1.symm⟩
    · obtain ⟨i, hi, hv⟩ := ih h1
      exact ⟨i + 1, Nat.succ_lt_succ hi, hv⟩

theorem mem_of_get? {α : Type _} {l : List α} {n : ℕ} {a : α}
    (h : l.get? n = some a) : a ∈ l := by
  induction l generalizing n with
  | nil => simp at h
  | cons b l ih =>
    cases n with
    | zero =>
      have hb : b = a := by simpa using h
      exact hb ▸ List.mem_cons_self _ _
    | succ n => exact List.mem_cons_of_mem _ (ih h)

theorem get?_isSome_of_lt {α : Type _} {l : List α} {n : ℕ} (h : n < l.length) :
    ∃ a, l.get? n = some a := by
  induction l generalizing n with
  | nil => simp at h
  | cons b l ih =>
    cases n with
    | zero => exact ⟨b, rfl⟩
    | succ n => exact ih (Nat.lt_of_succ_lt_succ h)

theorem foldl_max_mem (x : ℚ) (xs : List ℚ) : xs.foldl max x ∈ x :: xs := by
  induction xs generalizing x with
  | nil => exact List.mem_singleton.mpr rfl
  | cons y ys ih =>
    have h := ih (max x y)
    rw [List.foldl_cons]
    rcases List.mem_cons.mp h with h1 | h1
    · rcases max_choice x y with hm | hm
      · rw [h1, hm]; exact List.mem_cons_self _ _
      · rw [h1, hm]; exact List.mem_cons_of_mem _ (List.mem_cons_self _ _)
    · exact List.mem_cons_of_mem _ (List.mem_cons_of_mem _ h1)

theorem listMax_mem {l : List ℚ} {m : ℚ} (h : listMax l = some m) : m ∈ l := by
  cases l with
  | nil => simp [listMax] at h
  | cons x xs =>
    have h2 : xs.foldl max x = m := by simpa [listMax] using h
    exact h2 ▸ foldl_max_mem x xs

theorem mem_finiteVals {u : List Val} {q : ℚ} : q ∈ finiteVals u ↔ some q ∈ u := by
  simp [finiteVals, List.mem_filterMap, id]

theorem listMax_isSome_of_ne_nil {l : List ℚ} (h : l ≠ []) : ∃ m, listMax l = some m := by
  cases l with
  | nil => exact absurd rfl h
  | cons x xs => exact ⟨xs.foldl max x, rfl⟩

theorem mem_argmaxTies {u : List Val} {i : ℕ} (h : i ∈ argmaxTies u) :
    i < u.length ∧ nth u i ≠ none := by
  unfold argmaxTies at h
  cases hm : listMax (finiteVals u) with
  | none => rw [hm] at h; cases h
  | some m =>
    rw [hm] at h
    have h2 := List.mem_filter.mp h
    refine ⟨List.mem_range.mp h2.1, ?_⟩
    have h3 : nth u i = some m := by simpa using h2.2
    simp [h3]

theorem argmaxTies_ne_nil {u : List Val} (h : 0 < nonNanCount u) :
    argmaxTies u ≠ [] := by
  obtain ⟨q, hq⟩ := exists_some_of_nonNanCount_pos h
  have hfv : finiteVals u ≠ [] := by
    intro hnil
    have hmem : q ∈ finiteVals u := mem_finiteVals.mpr hq
    rw [hnil] at hmem
    cases hmem
  obtain ⟨m, hm⟩ := listMax_isSome_of_ne_nil hfv
  have hmem : some m ∈ u := mem_finiteVals.mp (listMax_mem hm)
  obtain ⟨i, hi, hv⟩ := nth_of_mem hmem
  intro hnil
  have h2 : i ∈ argmaxTies u := by
    unfold argmaxTies
    rw [hm]
    exact List.mem_filter.mpr ⟨List.mem_range.mpr hi, by simp [hv]⟩
  rw [hnil] at h2
  cases h2

theorem rand_argmax_isSome {u : List Val} (h : 0 < nonNanCount u) (g : RNG) :
    ∃ i, rand_argmax u g = some (i, g.next) := by
  have hne := argmaxTies_ne_nil h
  have hlen : 0 < (argmaxTies u).length := List.length_pos.mpr hne
  have hlt : g.draw % (argmaxTies u).length < (argmaxTies u).length :=
    Nat.mod_lt _ hlen
  obtain ⟨i, hi⟩ := get?_isSome_of_lt hlt
  refine ⟨i, ?_⟩
  unfold rand_argmax
  rw [hi]

theorem rand_argmax_some_spec {u : List Val} {g : RNG} {i : ℕ} {g2 : RNG}
    (h : rand_argmax u g = some (i, g2)) :
    i < u.length ∧ nth u i ≠ none := by
  unfold rand_argmax at h
  cases hg : (argmaxTies u).get? (g.draw % (argmaxTies u).length) with
  | none => rw [hg] at h; cases h
  | some j =>
    rw [hg] at h
    have hji : j = i := by
      have := h
      simp only [Option.some.injEq, Prod.mk.injEq] at this
      exact this.1
    subst hji
    exact mem_argmaxTies (mem_of_get? hg)

/-! ### Invariants of the `simple_batch` selection loop -/

theorem simple_batch_loop_preserves_none (b : ℕ) :
    ∀ (u : List Val) (g : RNG) (j : ℕ), nth u j = none →
      (∀ row ∈ (simple_batch_loop b u g).2.1, nth row j = none) ∧
      nth (simple_batch_loop b u g).2.2 j = none := by
  induction b with
  | zero =>
    intro u g j hj
    exact ⟨fun row hrow => (nomatch hrow), hj⟩
  | succ b ih =>
    intro u g j hj
    cases hr : rand_argmax u g with
    | none =>
      simp only [simple_batch_loop, hr]
      exact ⟨fun row hrow => (nomatch hrow), hj⟩
    | some p =>
      obtain ⟨i, g2⟩ := p
      have hj2 : nth (u.set i none) j = none := by
        rcases Nat.lt_or_ge j u.length with hlt | hge
        · by_cases hij : j = i
          · subst hij
            exact nth_set_self hlt none
          · rw [nth_set_ne hij]
            exact hj
        · exact nth_le_length (by simpa using hge)
      have hrec := ih (u.set i none) g2 j hj2
      simp only [simple_batch_loop, hr]
      refine ⟨?_, hrec.2⟩
      intro row hrow
      rcases List.mem_cons.mp hrow with h1 | h1
      · rw [h1]; exact hj
      · exact hrec.1 row h1

theorem simple_batch_loop_indices (b : ℕ) :
    ∀ (u : List Val) (g : RNG),
      (simple_batch_loop b u g).1.Nodup ∧
      ∀ i ∈ (simple_batch_loop b u g).1, i < u.length ∧ nth u i ≠ none := by
  induction b with
  | zero =>
    intro u g
    exact ⟨List.nodup_nil, fun i hi => nomatch hi⟩
  | succ b ih =>
    intro u g
    cases hr : rand_argmax u g with
    | none =>
      simp only [simple_batch_loop, hr]
      exact ⟨List.nodup_nil, fun i hi => nomatch hi⟩
    | some p =>
      obtain ⟨i, g2⟩ := p
      have hspec := rand_argmax_some_spec hr
      have hih := ih (u.set i none) g2
      have hnotmem : i ∉ (simple_batch_loop b (u.set i none) g2).1 := by
        intro hmem
        have h2 := (hih.2 i hmem).2
        have h3 : nth (u.set i none) i = none :=
          nth_set_self (by simpa using hspec.1) none
        exact h2 h3
      constructor
      · simp only [simple_batch_loop, hr]
        exact List.nodup_cons.mpr ⟨hnotmem, hih.1⟩
      · intro j hj
        simp only [simple_batch_loop, hr] at hj
        rcases List.mem_cons.mp hj with h1 | h1
        · subst h1; exact hspec
        · have h2 := hih.2 j h1
          refine ⟨by simpa using h2.1, ?_⟩
          by_cases hij : j = i
          · subst hij; exact absurd h1 hnotmem
          · rw [nth_set_ne hij] at h2
            exact h2.2

theorem simple_batch_loop_final_none (b : ℕ) :
    ∀ (u : List Val) (g : RNG) (j : ℕ), j ∈ (simple_batch_loop b u g).1 →
      nth (simple_batch_loop b u g).2.2 j = none := by
  induction b with
  | zero => intro u g j hj; cases hj
  | succ b ih =>
    intro u g j hj
    cases hr : rand_argmax u g with
    | none => simp only [simple_batch_loop, hr] at hj; cases hj
    | some p =>
      obtain ⟨i, g2⟩ := p
      simp only [simple_batch_loop, hr] at hj ⊢
      rcases List.mem_cons.mp hj with h1 | h1
      · subst h1
        have hlt : j < u.length := (rand_argmax_some_spec hr).1
        have hset : nth (u.set j none) j = none :=
          nth_set_self (by simpa using hlt) none
        exact (simple_batch_loop_preserves_none b (u.set j none) g2 j hset).2
      · exact ih (u.set i none) g2 j h1

theorem simple_batch_loop_rows (b : ℕ) :
    ∀ (u : List Val) (g : RNG) (r k : ℕ) (row : List Val) (i : ℕ),
      (simple_batch_loop b u g).2.1.get? r = some row →
      (simple_batch_loop b u g).1.get? k = some i →
      k < r → nth row i = none := by
  induction b with
  | zero =>
    intro u g r k row i hrow hk hkr
    simp [simple_batch_loop] at hrow
  | succ b ih =>
    intro u g r k row i hrow hk hkr
    cases hr : rand_argmax u g with
    | none => simp only [simple_batch_loop, hr] at hrow; simp at hrow
    | some p =>
      obtain ⟨i0, g2⟩ := p
      simp only [simple_batch_loop, hr] at hrow hk
      cases r with
      | zero => omega
      | succ r2 =>
        have hrow2 : (simple_batch_loop b (u.set i0 none) g2).2.1.get? r2 = some row := hrow
        cases k with
        | zero =>
          have hi0 : i0 = i := by simpa using hk
          subst hi0
          have hlt : i0 < u.length := (rand_argmax_some_spec hr).1
          have hset : nth (u.set i0 none) i0 = none :=
            nth_set_self (by simpa using hlt) none
          have hmem : row ∈ (simple_batch_loop b (u.set i0 none) g2).2.1 :=
            mem_of_get? hrow2
          exact (simple_batch_loop_preserves_none b _ g2 i0 hset).1 row hmem
        | succ k2 =>
          have hk2 : (simple_batch_loop b (u.set i0 none) g2).1.get? k2 = some i := hk
          exact ih _ g2 r2 k2 row i hrow2 hk2 (by omega)

theorem simple_batch_loop_len (b : ℕ) :
    ∀ (u : List Val) (g : RNG), b ≤ nonNanCount u →
      (simple_batch_loop b u g).1.length = b ∧
      (simple_batch_loop b u g).2.1.length = b ∧
      ∀ row ∈ (simple_batch_loop b u g).2.1, row.length = u.length := by
  induction b with
  | zero =>
    intro u g _
    exact ⟨rfl, rfl, fun row hrow => nomatch hrow⟩
  | succ b ih =>
    intro u g h
    have hpos : 0 < nonNanCount u := lt_of_lt_of_le (Nat.succ_pos b) h
    obtain ⟨i, hr⟩ := rand_argmax_isSome hpos g
    have hspec := rand_argmax_some_spec hr
    obtain ⟨q, hq⟩ : ∃ q, nth u i = some q := by
      cases hv : nth u i with
      | none => exact absurd hv hspec.2
      | some q => exact ⟨q, rfl⟩
    have hcount : nonNanCount (u.set i none) + 1 = nonNanCount u :=
      nonNanCount_set_none hq
    have hle : b ≤ nonNanCount (u.set i none) := by omega
    have hih := ih (u.set i none) g.next hle
    simp only [simple_batch_loop, hr]
    refine ⟨by simpa using hih.1, by simpa using hih.2.1, ?_⟩
    intro row hrow
    rcases List.mem_cons.mp hrow with h1 | h1
    · rw [h1]
    · have h2 := hih.2.2 row h1
      simpa using h2

/-! ### Claim theorems for `simple_batch` -/

/-- C2: within one `simple_batch` call the returned indices are pairwise
distinct, and in the returned utility-history every row `r` has `NaN` at
each position selected at an earlier batch position `k < r`. -/
theorem simple_batch_no_double_selection (u : List Val) (g : RNG) (batch_size : ℕ) :
    (simple_batch u g batch_size).1.Nodup ∧
    ∀ (r k : ℕ) (row : List Val) (i : ℕ),
      (simple_batch u g batch_size).2.1.get? r = some row →
      (simple_batch u g batch_size).1.get? k = some i →
      k < r → nth row i = none :=
  ⟨(simple_batch_loop_indices (min batch_size (nonNanCount u)) u g).1,
   fun r k row i hrow hk hkr =>
     simple_batch_loop_rows (min batch_size (nonNanCount u)) u g r k row i hrow hk hkr⟩

theorem simple_batch_no_double_selection_witness :
    (simple_batch [some 1, some 3, some 2] ⟨0, 0⟩ 2).1.Nodup ∧
    nth [some 1, none, some 2] 1 = none :=
  ⟨(simple_batch_no_double_selection [some 1, some 3, some 2] ⟨0, 0⟩ 2).1,
   (simple_batch_no_double_selection [some 1, some 3, some 2] ⟨0, 0⟩ 2).2
     1 0 [some 1, none, some 2] 1 (by decide) (by decide) (by decide)⟩

/-- C3: when the number `m` of non-`NaN` entries is smaller than the
requested `batch_size ≥ 1`, `simple_batch` does not raise, emits a warning,
shrinks the batch to `m`, and returns exactly `m` selections with utility
history of `m` rows each of the input's shape. -/
theorem simple_batch_clips_oversized_batch (u : List Val) (g : RNG) (batch_size : ℤ)
    (h1 : 1 ≤ batch_size) (h2 : nonNanCount u < batch_size.toNat) :
    simple_batch_checked u g batch_size = .ok (simple_batch u g batch_size.toNat) ∧
    (simple_batch u g batch_size.toNat).2.2.2 = true ∧
    (simple_batch u g batch_size.toNat).1.length = nonNanCount u ∧
    (simple_batch u g batch_size.toNat).2.1.length = nonNanCount u ∧
    ∀ row ∈ (simple_batch u g batch_size.toNat).2.1, row.length = u.length := by
  have hmin : min batch_size.toNat (nonNanCount u) = nonNanCount u :=
    Nat.min_eq_right (le_of_lt h2)
  have hlen := simple_batch_loop_len (nonNanCount u) u g (le_refl _)
  refine ⟨?_, ?_, ?_, ?_, ?_⟩
  · simp [simple_batch_checked, not_lt.mpr h1]
  · simp [simple_batch, h2]
  · show (simple_batch_loop (min batch_size.toNat (nonNanCount u)) u g).1.length = _
    rw [hmin]
    exact hlen.1
  · show (simple_batch_loop (min batch_size.toNat (nonNanCount u)) u g).2.1.length = _
    rw [hmin]
    exact hlen.2.1
  · show ∀ row ∈ (simple_batch_loop (min batch_size.toNat (nonNanCount u)) u g).2.1, _
    rw [hmin]
    exact hlen.2.2

theorem simple_batch_clips_oversized_batch_witness :
    simple_batch_checked [some 1, none] ⟨0, 0⟩ 2 = .ok (simple_batch [some 1, none] ⟨0, 0⟩ 2) ∧
    (simple_batch [some 1, none] ⟨0, 0⟩ 2).2.2.2 = true ∧
    (simple_batch [some 1, none] ⟨0, 0⟩ 2).1.length = nonNanCount [some 1, none] ∧
    (simple_batch [some 1, none] ⟨0, 0⟩ 2).2.1.length = nonNanCount [some 1, none] ∧
    ∀ row ∈ (simple_batch [some 1, none] ⟨0, 0⟩ 2).2.1, row.length = ([some 1, none] : List Val).length :=
  simple_batch_clips_oversized_batch [some 1, none] ⟨0, 0⟩ 2 (by decide) (by decide)

/-- C10: `simple_batch` mutates its `utilities` argument in place (the
validation step returns the caller's float array uncopied); the post-call
state of the array — modelled as the third component of the result — holds
`NaN` at every position selected into the batch. -/
theorem simple_batch_mutates_input (u : List Val) (g : RNG) (batch_size : ℕ) :
    ∀ i ∈ (simple_batch u g batch_size).1,
      nth (simple_batch u g batch_size).2.2.1 i = none :=
  fun i hi =>
    simple_batch_loop_final_none (min batch_size (nonNanCount u)) u g i hi

theorem simple_batch_mutates_input_witness :
    nth (simple_batch [some 1, some 3, some 2] ⟨0, 1⟩ 2).2.2.1 1 = none :=
  simple_batch_mutates_input [some 1, some 3, some 2] ⟨0, 1⟩ 2 1 (by decide)


/-! ### The buffer loops of `expected_error_reduction`, compositionally -/

theorem set_append_self {α : Type _} (A : List α) (l : List α) (v : α) :
    (A ++ l).set A.length v = A ++ l.set 0 v := by
  induction A with
  | nil => rfl
  | cons a A ih =>
    show a :: ((A ++ l).set A.length v) = a :: (A ++ l.set 0 v)
    rw [ih]

theorem drop_cons_of_lt {α : Type _} :
    ∀ (l : List α) (n : ℕ), n < l.length → ∃ a, l.drop n = a :: l.drop (n + 1) := by
  intro l
  induction l with
  | nil => intro n h; simp at h
  | cons b l ih =>
    intro n h
    cases n with
    | zero => exact ⟨b, rfl⟩
    | succ n =>
      obtain ⟨a, ha⟩ := ih n (Nat.lt_of_succ_lt_succ h)
      exact ⟨a, ha⟩

theorem set_append_drop {α : Type _} (A : List α) (l : List α) (n : ℕ) (v : α)
    (hA : A.length = n) (hn : n < l.length) :
    (A ++ l.drop n).set n v = A ++ [v] ++ l.drop (n + 1) := by
  obtain ⟨a, ha⟩ := drop_cons_of_lt l n hn
  calc (A ++ l.drop n).set n v
      = (A ++ l.drop n).set A.length v := by rw [hA]
    _ = A ++ (l.drop n).set 0 v := set_append_self _ _ _
    _ = A ++ (a :: l.drop (n + 1)).set 0 v := by rw [ha]
    _ = A ++ [v] ++ l.drop (n + 1) := by simp

theorem foldl_set_range {α : Type _} (f : ℕ → α) :
    ∀ (n : ℕ) (buf : List α), n ≤ buf.length →
      (List.range n).foldl (fun b i => b.set i (f i)) buf =
        (List.range n).map f ++ buf.drop n := by
  intro n
  induction n with
  | zero => intro buf _; simp
  | succ n ih =>
    intro buf h
    rw [List.range_succ, List.foldl_append, List.foldl_cons, List.foldl_nil,
      ih buf (by omega), List.map_append,
      set_append_drop _ buf n (f n) (by simp) (by omega)]
    simp

theorem eer_step_foldl (ncl : ℕ) (f : ℕ → ℕ → ℚ) :
    ∀ (n : ℕ) (errs epc0 : List ℚ), n ≤ errs.length → epc0.length = ncl →
      ((List.range n).foldl (eer_step ncl f) (errs, epc0)).1 =
        (List.range n).map (fun i => ((List.range ncl).map (f i)).sum) ++
          errs.drop n ∧
      ((List.range n).foldl (eer_step ncl f) (errs, epc0)).2.length = ncl := by
  intro n
  induction n with
  | zero => intro errs epc0 _ h2; exact ⟨by simp, h2⟩
  | succ n ih =>
    intro errs epc0 h1 h2
    obtain ⟨ha, hb⟩ := ih errs epc0 (by omega) h2
    rw [List.range_succ, List.foldl_append, List.foldl_cons, List.foldl_nil]
    set S := (List.range n).foldl (eer_step ncl f) (errs, epc0) with hS
    have hepc : (List.range ncl).foldl (fun b yi => b.set yi (f n yi)) S.2 =
        (List.range ncl).map (f n) := by
      rw [foldl_set_range (f n) ncl _ (le_of_eq hb.symm),
        List.drop_eq_nil_of_le (le_of_eq hb)]
      simp
    have hstep : eer_step ncl f S n =
        (S.1.set n (((List.range ncl).map (f n)).sum),
         (List.range ncl).map (f n)) := by
      show (S.1.set n
            ((List.range ncl).foldl (fun b yi => b.set yi (f n yi)) S.2).sum,
          (List.range ncl).foldl (fun b yi => b.set yi (f n yi)) S.2) = _
      rw [hepc]
    rw [hstep]
    refine ⟨?_, by simp⟩
    rw [ha, set_append_drop _ errs n _ (by simp) (by omega), List.map_append]
    simp

/-- Shared helper: the imperative buffer loop of `expected_error_reduction`
equals the compositional per-candidate formula with the class index
appended as hypothetical label. -/
theorem eer_eq_compositional (logf : ℚ → ℚ) (eps : ℚ) (clf : Clf)
    (X_cand X : Mat) (y : List Val) (classes : List ℚ) (C : Mat)
    (method : String) :
    expected_error_reduction logf eps clf X_cand X y classes C method =
      eer_append_class_index logf eps clf X_cand X y classes C method := by
  unfold expected_error_reduction eer_append_class_index
  dsimp only
  rw [(eer_step_foldl classes.length _ X_cand.length
      (List.replicate X_cand.length 0) (List.replicate classes.length 0)
      (by simp) (by simp)).1]
  rw [List.drop_eq_nil_of_le (by simp)]
  simp [List.map_map, Function.comp]


/-- C1 as stated is false at `classes = [5, 7]`: the code appends the class
*position* (`0` or `1`) to `y` (`np.append(y, [[yi]])`), not the class
value `y_h ∈ {5, 7}`, and the resulting utilities differ. -/
theorem expected_error_reduction_append_counterexample :
    expected_error_reduction (fun _ => 0) 0 clfC1 [[0]] [] [] [5, 7]
        [[0, 1], [1, 0]] "emr" ≠
      eer_append_class_label (fun _ => 0) 0 clfC1 [[0]] [] [] [5, 7]
        [[0, 1], [1, 0]] "emr" := by
  with_unfolding_all decide

/-- C1 (amended): for every candidate `i` and every class position `yi`,
`expected_error_reduction` refits a private clone of the model on
`(X ∪ {candidate_i}, y ∪ {yi})` — the *index* of the hypothetical label
`y_h = classes[yi]`, not the label value — computes the risk of that refit
model, weights it by the baseline posterior `P[i, yi]`, sums over labels
and returns the negated expected error for each candidate. -/
theorem expected_error_reduction_spec (logf : ℚ → ℚ) (eps : ℚ) (clf : Clf)
    (X_cand X : Mat) (y : List Val) (classes : List ℚ) (C : Mat)
    (method : String) :
    expected_error_reduction logf eps clf X_cand X y classes C method =
      eer_append_class_index logf eps clf X_cand X y classes C method :=
  eer_eq_compositional logf eps clf X_cand X y classes C method

/-! ### The `csl` risk (claim C8) -/

theorem getD_mem {α : Type _} (d : α) :
    ∀ (l : List α) (p : ℕ), p < l.length → l.getD p d ∈ l := by
  intro l
  induction l with
  | nil => intro p h; simp at h
  | cons a l ih =>
    intro p h
    cases p with
    | zero => exact List.mem_cons_self _ _
    | succ p => exact List.mem_cons_of_mem _ (ih p (Nat.lt_of_succ_lt_succ h))

theorem getD_map_lt {α β : Type _} (f : α → β) (db : β) (da : α) :
    ∀ (l : List α) (p : ℕ), p < l.length → (l.map f).getD p db = f (l.getD p da) := by
  intro l
  induction l with
  | nil => intro p h; simp at h
  | cons a l ih =>
    intro p h
    cases p with
    | zero => rfl
    | succ p => exact ih p (Nat.lt_of_succ_lt_succ h)


theorem csl_cost_eq_spec (clf : Clf) (Xa : Mat) (ya : List Val) (X : Mat)
    (y : List Val) (classes : List ℚ) (C : Mat) :
    csl_cost clf Xa ya X y classes C = csl_risk_spec clf Xa ya X y classes C := by
  unfold csl_cost csl_risk_spec
  dsimp only
  rw [List.length_map]
  by_cases hpos : 0 < (labeledIndices y).length
  · rw [if_pos hpos]
    apply congrArg
    apply List.map_congr_left
    intro p hp
    have hplt : p < (labeledIndices y).length := List.mem_range.mp hp
    apply congrArg
    apply List.map_congr_left
    intro c _
    rw [getD_map_lt _ _ 0 (labeledIndices y) p hplt]
  · rw [if_neg hpos]
    have hnil : labeledIndices y = [] := by
      cases h : labeledIndices y with
      | nil => rfl
      | cons a l => rw [h] at hpos; simp at hpos
    rw [hnil]
    simp

theorem labeledIndices_eq_nil {y : List Val} (h : ∀ v ∈ y, v = none) :
    labeledIndices y = [] := by
  unfold labeledIndices
  rw [List.filter_eq_nil_iff]
  intro j hj
  have hlt : j < y.length := List.mem_range.mp hj
  have hv : y.getD j none = none := h _ (getD_mem none y j hlt)
  simp only [List.getD, List.get?_eq_getElem?] at hv
  simp [hv]

/-- C8: the `csl` per-hypothesis risk equals the refit model's cost-weighted
posterior summed over only the already-labeled samples, using each labeled
sample's true class row of `C`; with an empty labeled set every risk is `0`
and every candidate's utility is `0`. -/
theorem csl_risk_labeled_only (logf : ℚ → ℚ) (eps : ℚ) (clf : Clf)
    (X_cand X : Mat) (y : List Val) (classes : List ℚ) (C : Mat) :
    (∀ (x : List ℚ) (lab : Val),
      eer_cost logf eps clf X_cand X y classes C "csl" x lab =
        csl_risk_spec clf (X ++ [x]) (y ++ [lab]) X y classes C) ∧
    ((∀ v ∈ y, v = none) →
      expected_error_reduction logf eps clf X_cand X y classes C "csl" =
        List.replicate X_cand.length 0) := by
  have hcost : ∀ (x : List ℚ) (lab : Val),
      eer_cost logf eps clf X_cand X y classes C "csl" x lab =
        csl_cost clf (X ++ [x]) (y ++ [lab]) X y classes C := by
    intro x lab
    unfold eer_cost
    simp
  refine ⟨fun x lab => (hcost x lab).trans (csl_cost_eq_spec _ _ _ _ _ _ _), ?_⟩
  intro hally
  have hnil : labeledIndices y = [] := labeledIndices_eq_nil hally
  have hzero : ∀ (x : List ℚ) (lab : Val),
      eer_cost logf eps clf X_cand X y classes C "csl" x lab = 0 := by
    intro x lab
    rw [hcost x lab]
    unfold csl_cost
    rw [hnil]
    simp
  rw [eer_eq_compositional]
  unfold eer_append_class_index
  have hmap : ∀ i ∈ List.range X_cand.length,
      -(((List.range classes.length).map (fun yi =>
        mget (clf.pp X y X_cand) i yi *
          eer_cost logf eps clf X_cand X y classes C "csl"
            (X_cand.getD i []) (some (yi : ℚ)))).sum) = (0 : ℚ) := by
    intro i _
    have hsum : ((List.range classes.length).map (fun yi =>
        mget (clf.pp X y X_cand) i yi *
          eer_cost logf eps clf X_cand X y classes C "csl"
            (X_cand.getD i []) (some (yi : ℚ)))).sum = 0 := by
      apply List.sum_eq_zero
      intro q hq
      obtain ⟨yi, _, hqe⟩ := List.mem_map.mp hq
      rw [← hqe, hzero]
      simp
    rw [hsum]
    simp
  rw [List.map_congr_left hmap]
  simp

theorem csl_risk_labeled_only_witness :
    expected_error_reduction (fun _ => 0) 0 ⟨fun _ _ Xq => Xq.map (fun _ => [1, 0])⟩
        [[0], [1]] [[2]] [none] [0, 1] [[0, 1], [1, 0]] "csl" =
      List.replicate 2 0 :=
  (csl_risk_labeled_only (fun _ => 0) 0 ⟨fun _ _ Xq => Xq.map (fun _ => [1, 0])⟩
    [[0], [1]] [[2]] [none] [0, 1] [[0, 1], [1, 0]]).2 (by decide)

/-! ### Validation order of `ExpectedErrorReduction.query` (claim C7) -/

/-- C7: `query` raises `TypeError` when the model lacks the class-frequency
estimation capability, `ValueError` when the configured `classes` differ
from the model's classes, and `ValueError` for an unrecognized `method`.
Each error is determined by the configuration alone — the conclusion holds
for every classifier behaviour `clf`, every `logf`/`eps`, and every data
set, so the error is raised before any model fitting can occur. -/
theorem eer_query_validation (s : EER) (logf : ℚ → ℚ) (eps : ℚ)
    (clf : Clf) (X_cand X : Mat) (y : List Val) :
    (s.clf_is_cfe = false →
      eer_query s logf eps clf X_cand X y = .error .typeError) ∧
    (s.clf_is_cfe = true →
      check_classifier_params s.classes s.C = .ok () →
      s.clf_classes ≠ s.classes →
      eer_query s logf eps clf X_cand X y = .error .valueError) ∧
    (s.clf_is_cfe = true →
      check_classifier_params s.classes s.C = .ok () →
      s.clf_classes = s.classes →
      s.method ∉ (["emr", "csl", "log_loss"] : List String) →
      eer_query s logf eps clf X_cand X y = .error .valueError) := by
  refine ⟨?_, ?_, ?_⟩
  · intro h1
    unfold eer_query
    rw [if_pos h1]
  · intro h1 h2 h3
    simp only [eer_query, h1, h2]
    simp [h3]
  · intro h1 h2 h3 h4
    simp only [eer_query, h1, h2]
    simp [h3, h4]

theorem eer_query_validation_witness :
    eer_query ⟨false, [0, 1], [0, 1], "emr", none, .seed 0⟩ (fun _ => 0) 0
        ⟨fun _ _ Xq => Xq.map (fun _ => [1, 0])⟩ [[0]] [] [] =
      .error .typeError ∧
    eer_query ⟨true, [0], [1], "emr", none, .seed 0⟩ (fun _ => 0) 0
        ⟨fun _ _ Xq => Xq.map (fun _ => [1, 0])⟩ [[0]] [] [] =
      .error .valueError ∧
    eer_query ⟨true, [0, 1], [0, 1], "least_confident", none, .seed 0⟩ (fun _ => 0) 0
        ⟨fun _ _ Xq => Xq.map (fun _ => [1, 0])⟩ [[0]] [] [] =
      .error .valueError :=
  ⟨(eer_query_validation ⟨false, [0, 1], [0, 1], "emr", none, .seed 0⟩
      (fun _ => 0) 0 ⟨fun _ _ Xq => Xq.map (fun _ => [1, 0])⟩ [[0]] [] []).1 rfl,
   (eer_query_validation ⟨true, [0], [1], "emr", none, .seed 0⟩
      (fun _ => 0) 0 ⟨fun _ _ Xq => Xq.map (fun _ => [1, 0])⟩ [[0]] [] []).2.1
      rfl rfl (by decide),
   (eer_query_validation ⟨true, [0, 1], [0, 1], "least_confident", none, .seed 0⟩
      (fun _ => 0) 0 ⟨fun _ _ Xq => Xq.map (fun _ => [1, 0])⟩ [[0]] [] []).2.2
      rfl rfl rfl (by decide)⟩

/-! ### `SubSamplingWrapper` clipping (claim C5) -/

theorem removeAt_length {α : Type _} :
    ∀ (l : List α) (j : ℕ), j < l.length → (removeAt l j).length + 1 = l.length := by
  intro l
  induction l with
  | nil => intro j h; simp at h
  | cons a l ih =>
    intro j h
    cases j with
    | zero => rfl
    | succ j =>
      have h2 := ih j (Nat.lt_of_succ_lt_succ h)
      show (removeAt l j).length + 1 + 1 = l.length + 1
      omega

theorem choiceWR_length {α : Type _} :
    ∀ (k : ℕ) (g : RNG) (pool : List α), k ≤ pool.length →
      ((choiceWR g pool k).1).length = k := by
  intro k
  induction k with
  | zero => intro g pool _; rfl
  | succ k ih =>
    intro g pool h
    have hpos : 0 < pool.length := by omega
    have hlt : g.draw % pool.length < pool.length := Nat.mod_lt _ hpos
    obtain ⟨x, hx⟩ := get?_isSome_of_lt hlt
    have hrem := removeAt_length pool (g.draw % pool.length) hlt
    have hrec := ih g.next (removeAt pool (g.draw % pool.length)) (by omega)
    simp only [choiceWR, hx]
    simpa using hrec

theorem resolveMaxCand_le (mc : MaxCand) (p : ℕ) : resolveMaxCand mc p ≤ p := by
  cases mc with
  | int n => exact Nat.min_le_right _ _
  | float q => exact Nat.min_le_right _ _
  | invalid => exact Nat.zero_le _

theorem ssw_subsample_len (g : RNG) (mc : MaxCand) (y : List Val) (cands : Cands) :
    candsLen (ssw_subsample g mc y cands).1 =
      resolveMaxCand mc (poolSize y cands) := by
  cases cands with
  | all =>
    show ((choiceWR g (unlabeledIndices y) _).1).length = _
    exact choiceWR_length _ g _ (resolveMaxCand_le _ _)
  | idx l =>
    show ((choiceWR g l _).1).length = _
    exact choiceWR_length _ g _ (resolveMaxCand_le _ _)
  | feat M =>
    show (((choiceWR g (List.range M.length) _).1).map _).length = _
    rw [List.length_map]
    have h := choiceWR_length (resolveMaxCand mc M.length) g (List.range M.length)
      (by simpa using resolveMaxCand_le mc M.length)
    simpa using h

theorem ssw_go_warned (s : SSW) (inner : Inner) (X : Mat) (y : List Val)
    (cands : Cands) (bs : ℕ) (ru : Bool) :
    (ssw_query_go s inner X y cands bs ru).1.warned = false := by
  unfold ssw_query_go
  dsimp only
  split
  · split <;> rfl
  · split
    · rfl
    · split <;> rfl

theorem ssw_go_state (s : SSW) (inner : Inner) (X : Mat) (y : List Val)
    (cands : Cands) (bs : ℕ) (ru : Bool) :
    (ssw_query_go s inner X y cands bs ru).2 = s := by
  unfold ssw_query_go
  dsimp only
  split
  · split <;> rfl
  · split
    · rfl
    · split <;> rfl

/-- C5 as stated is false: with `max_candidates = 5` and a pool of 2
unlabeled candidates, `query` clips and proceeds but emits no warning
(the `warned` flag of the result is `false`; `_wrapper.py` contains no
`warnings.warn`). -/
theorem ssw_query_clip_no_warning_counterexample :
    (unlabeledIndices [none, none, some 0]).length = 2 ∧
    ssw_query ⟨true, .int 5, .seed 0⟩ innerSum [[0], [1], [2]]
        [none, none, some 0] .all 1 false =
      .ok (⟨[0], none, false⟩, ⟨true, .int 5, .seed 0⟩) := by
  exact ⟨by decide, rfl⟩

/-- C5 (amended): when a valid integer `max_candidates ≥ 1` exceeds the
resolved candidate pool size, `query` clips it to the pool size — the
sub-sample is the whole pool — and proceeds normally (returns `ok`), but
emits no warning. -/
theorem ssw_query_clips_max_candidates (s : SSW) (inner : Inner) (X : Mat)
    (y : List Val) (cands : Cands) (bs : ℕ) (ru : Bool) (n : ℤ)
    (hq : s.qs_is_pool = true) (hmc : s.max_candidates = .int n) (h1 : 1 ≤ n)
    (hbig : poolSize y cands < n.toNat) :
    ssw_query s inner X y cands bs ru =
      .ok (ssw_query_go s inner X y cands bs ru) ∧
    candsLen (ssw_subsample (deriveRNG s.rs (labeledCount y + 1))
        s.max_candidates y cands).1 = poolSize y cands ∧
    (ssw_query_go s inner X y cands bs ru).1.warned = false := by
  refine ⟨?_, ?_, ssw_go_warned s inner X y cands bs ru⟩
  · unfold ssw_query
    rw [hmc, hq]
    simp only [Bool.true_eq_false, if_false]
    rw [if_neg (by omega)]
  · rw [ssw_subsample_len, hmc]
    show min n.toNat (poolSize y cands) = poolSize y cands
    exact Nat.min_eq_right (le_of_lt hbig)

theorem ssw_query_clips_max_candidates_witness :
    ssw_query ⟨true, .int 5, .seed 0⟩ innerSum [[0], [1], [2]]
        [none, none, some 0] .all 1 false =
      .ok (ssw_query_go ⟨true, .int 5, .seed 0⟩ innerSum [[0], [1], [2]]
        [none, none, some 0] .all 1 false) ∧
    candsLen (ssw_subsample (deriveRNG (RSState.seed 0)
        (labeledCount [none, none, some 0] + 1))
        (MaxCand.int 5) [none, none, some 0] .all).1 =
      poolSize [none, none, some 0] .all ∧
    (ssw_query_go ⟨true, .int 5, .seed 0⟩ innerSum [[0], [1], [2]]
        [none, none, some 0] .all 1 false).1.warned = false :=
  ssw_query_clips_max_candidates ⟨true, .int 5, .seed 0⟩ innerSum
    [[0], [1], [2]] [none, none, some 0] .all 1 false 5
    rfl rfl (by decide) (by decide)

/-! ### Index-space fidelity of the 2-D candidates branch (claim C6) -/

theorem getD_append_lt {α : Type _} (d : α) :
    ∀ (l1 l2 : List α) (p : ℕ), p < l1.length → (l1 ++ l2).getD p d = l1.getD p d := by
  intro l1
  induction l1 with
  | nil => intro l2 p h; simp at h
  | cons a l1 ih =>
    intro l2 p h
    cases p with
    | zero => rfl
    | succ p => exact ih l2 p (Nat.lt_of_succ_lt_succ h)

theorem getD_append_length {α : Type _} (d : α) :
    ∀ (l1 l2 : List α), (l1 ++ l2).getD l1.length d = l2.getD 0 d := by
  intro l1
  induction l1 with
  | nil => intro l2; rfl
  | cons a l1 ih => intro l2; exact ih l2

theorem getD_range_lt : ∀ (k j : ℕ), j < k → (List.range k).getD j 0 = j := by
  intro k
  induction k with
  | zero => intro j h; simp at h
  | succ k ih =>
    intro j h
    rcases Nat.lt_or_ge j k with hlt | hge
    · rw [List.range_succ, getD_append_lt 0 _ _ j (by simpa using hlt)]
      exact ih j hlt
    · have hjk : j = k := by omega
      subst hjk
      rw [List.range_succ]
      have hlen : (List.range j).length = j := List.length_range j
      calc (List.range j ++ [j]).getD j 0
          = (List.range j ++ [j]).getD (List.range j).length 0 := by rw [hlen]
        _ = ([j] : List ℕ).getD 0 0 := getD_append_length 0 _ _
        _ = j := rfl

theorem nth_scatterCols (sel : List ℕ) (row : List Val) {k j : ℕ} (hj : j < k) :
    nth (scatterCols k sel row) j =
      if j ∈ sel then row.getD (sel.indexOf j) none else none := by
  unfold scatterCols nth
  rw [getD_map_lt _ none 0 _ j (by simpa using hj), getD_range_lt k j hj]

theorem mem_of_mem_removeAt {α : Type _} :
    ∀ (l : List α) (j : ℕ) (x : α), x ∈ removeAt l j → x ∈ l := by
  intro l
  induction l with
  | nil => intro j x h; cases h
  | cons a l ih =>
    intro j x h
    cases j with
    | zero => exact List.mem_cons_of_mem _ h
    | succ j =>
      rcases List.mem_cons.mp h with h1 | h1
      · exact h1 ▸ List.mem_cons_self _ _
      · exact List.mem_cons_of_mem _ (ih j x h1)

theorem nodup_removeAt {α : Type _} :
    ∀ (l : List α) (j : ℕ), l.Nodup → (removeAt l j).Nodup := by
  intro l
  induction l with
  | nil => intro j h; exact h
  | cons a l ih =>
    intro j h
    cases j with
    | zero => exact (List.nodup_cons.mp h).2
    | succ j =>
      have h2 := List.nodup_cons.mp h
      refine List.nodup_cons.mpr ⟨?_, ih j h2.2⟩
      intro hmem
      exact h2.1 (mem_of_mem_removeAt l j a hmem)

theorem get_not_mem_removeAt {α : Type _} :
    ∀ (l : List α) (j : ℕ) (x : α), l.Nodup → l.get? j = some x →
      x ∉ removeAt l j := by
  intro l
  induction l with
  | nil => intro j x _ h; simp at h
  | cons a l ih =>
    intro j x hnd hx
    cases j with
    | zero =>
      have hax : a = x := by simpa using hx
      subst hax
      exact (List.nodup_cons.mp hnd).1
    | succ j =>
      intro hmem
      rcases List.mem_cons.mp hmem with h1 | h1
      · have hxl : x ∈ l := mem_of_get? hx
        exact (List.nodup_cons.mp hnd).1 (h1 ▸ hxl)
      · exact ih j x (List.nodup_cons.mp hnd).2 hx h1

theorem choiceWR_mem {α : Type _} :
    ∀ (k : ℕ) (g : RNG) (pool : List α) (x : α),
      x ∈ (choiceWR g pool k).1 → x ∈ pool := by
  intro k
  induction k with
  | zero => intro g pool x h; cases h
  | succ k ih =>
    intro g pool x h
    cases hx : pool.get? (g.draw % pool.length) with
    | none => simp only [choiceWR, hx] at h; cases h
    | some a =>
      simp only [choiceWR, hx] at h
      rcases List.mem_cons.mp h with h1 | h1
      · exact h1 ▸ mem_of_get? hx
      · exact mem_of_mem_removeAt _ _ _ (ih g.next _ x h1)

theorem choiceWR_nodup {α : Type _} :
    ∀ (k : ℕ) (g : RNG) (pool : List α), pool.Nodup →
      ((choiceWR g pool k).1).Nodup := by
  intro k
  induction k with
  | zero => intro g pool _; exact List.nodup_nil
  | succ k ih =>
    intro g pool hnd
    cases hx : pool.get? (g.draw % pool.length) with
    | none => simp only [choiceWR, hx]; exact List.nodup_nil
    | some a =>
      simp only [choiceWR, hx]
      refine List.nodup_cons.mpr ⟨?_, ih g.next _ (nodup_removeAt _ _ hnd)⟩
      intro hmem
      exact get_not_mem_removeAt pool _ a hnd hx
        (choiceWR_mem k g.next _ a hmem)

theorem indexOf_getD_nodup {l : List ℕ} (hn : l.Nodup) :
    ∀ (p : ℕ), p < l.length → l.indexOf (l.getD p 0) = p := by
  induction l with
  | nil => intro p hp; simp at hp
  | cons a l ih =>
    intro p hp
    cases p with
    | zero => simp
    | succ p =>
      have hp2 : p < l.length := Nat.lt_of_succ_lt_succ hp
      have hmem : l.getD p 0 ∈ l := getD_mem 0 l p hp2
      have hne : a ≠ l.getD p 0 := fun he => (List.nodup_cons.mp hn).1 (he ▸ hmem)
      show List.indexOf (l.getD p 0) (a :: l) = p + 1
      rw [List.indexOf_cons_ne _ hne, ih (List.nodup_cons.mp hn).2 p hp2]

/-- C6 as stated is false: with `batch_size = 2` the inner utility rows
carry `NaN` at already-selected batch positions, so the embedded full-width
rows have `NaN` inside a sub-sampled column (column `2` is sub-sampled, yet
row `1` holds `NaN` there). -/
theorem ssw_query_feat_nan_counterexample :
    (ssw_subsample (deriveRNG (RSState.seed 0) (labeledCount [some 0] + 1))
        (MaxCand.int 2) [some 0] (.feat [[1], [2], [3]])).2 = [2, 1] ∧
    ssw_query ⟨true, .int 2, .seed 0⟩ innerSum [[9]] [some 0]
        (.feat [[1], [2], [3]]) 2 true =
      .ok (⟨[2, 1], some [[none, some 2, some 3], [none, some 2, none]], false⟩,
        ⟨true, .int 2, .seed 0⟩) ∧
    nth [none, some 2, none] 2 = none := by
  refine ⟨rfl, ?_, rfl⟩
  with_unfolding_all rfl

/-- C6 (amended): for a 2-D `candidates` matrix of `k` rows with
`return_utilities=True`, every returned utility row has exactly `k`
columns; columns outside the sub-sampled positions `sel` are `NaN`; the
sub-sampled column `sel[p]` holds entry `p` of the inner strategy's row —
which may itself be `NaN` at already-selected batch positions; and the
returned indices are the inner sub-sample-local indices translated through
`sel` into positions `0..k-1` of the caller's `candidates`. -/
theorem ssw_query_feat_index_space (s : SSW) (inner : Inner) (X : Mat)
    (y : List Val) (M : Mat) (bs : ℕ) (n : ℤ) (sel : List ℕ)
    (utils : List (List Val))
    (hq : s.qs_is_pool = true) (hmc : s.max_candidates = .int n) (h1 : 1 ≤ n)
    (hsel : sel = (ssw_subsample (deriveRNG s.rs (labeledCount y + 1))
      s.max_candidates y (.feat M)).2)
    (hu : (inner X y (ssw_subsample (deriveRNG s.rs (labeledCount y + 1))
      s.max_candidates y (.feat M)).1 bs true).2 = some utils) :
    ssw_query s inner X y (.feat M) bs true =
      .ok (⟨(inner X y (ssw_subsample (deriveRNG s.rs (labeledCount y + 1))
          s.max_candidates y (.feat M)).1 bs true).1.map
            (fun q => sel.getD q 0),
          some (utils.map (scatterCols M.length sel)), false⟩, s) ∧
    (∀ row2 ∈ utils.map (scatterCols M.length sel), row2.length = M.length) ∧
    (∀ row ∈ utils, ∀ j, j < M.length → j ∉ sel →
      nth (scatterCols M.length sel row) j = none) ∧
    (∀ row ∈ utils, ∀ p, p < sel.length →
      nth (scatterCols M.length sel row) (sel.getD p 0) = nth row p) ∧
    (∀ p, p < sel.length → sel.getD p 0 < M.length) := by
  have hselWR : sel = (choiceWR (deriveRNG s.rs (labeledCount y + 1))
      (List.range M.length)
      (resolveMaxCand s.max_candidates M.length)).1 := hsel
  have hnodup : sel.Nodup := by
    rw [hselWR]
    exact choiceWR_nodup _ _ _ (List.nodup_range M.length)
  have hmemk : ∀ j ∈ sel, j < M.length := by
    intro j hj
    rw [hselWR] at hj
    exact List.mem_range.mp (choiceWR_mem _ _ _ j hj)
  have hlt : ∀ p, p < sel.length → sel.getD p 0 < M.length := fun p hp =>
    hmemk _ (getD_mem 0 sel p hp)
  refine ⟨?_, ?_, ?_, ?_, hlt⟩
  · have hok : ssw_query s inner X y (.feat M) bs true =
        .ok (ssw_query_go s inner X y (.feat M) bs true) := by
      unfold ssw_query
      rw [hmc, hq]
      simp only [Bool.true_eq_false, if_false]
      rw [if_neg (by omega)]
    rw [hok]
    unfold ssw_query_go
    dsimp only
    rw [hu, ← hsel]
    rfl
  · intro row2 hrow2
    obtain ⟨row, _, hre⟩ := List.mem_map.mp hrow2
    rw [← hre]
    unfold scatterCols
    simp
  · intro row _ j hjk hjsel
    rw [nth_scatterCols sel row hjk, if_neg hjsel]
  · intro row _ p hp
    have hj : sel.getD p 0 ∈ sel := getD_mem 0 sel p hp
    rw [nth_scatterCols sel row (hlt p hp), if_pos hj,
      indexOf_getD_nodup hnodup p hp]
    rfl

theorem ssw_query_feat_index_space_witness :
    ssw_query ⟨true, .int 2, .seed 0⟩ innerSum [[9]] [some 0]
        (.feat [[1], [2], [3]]) 2 true =
      .ok (⟨(innerSum [[9]] [some 0]
            (ssw_subsample (deriveRNG (RSState.seed 0) (labeledCount [some 0] + 1))
              (MaxCand.int 2) [some 0] (.feat [[1], [2], [3]])).1 2 true).1.map
            (fun q => ([2, 1] : List ℕ).getD q 0),
          some ([[some 3, some 2], [none, some 2]].map (scatterCols 3 [2, 1])),
          false⟩, ⟨true, .int 2, .seed 0⟩) :=
  (ssw_query_feat_index_space ⟨true, .int 2, .seed 0⟩ innerSum [[9]] [some 0]
    [[1], [2], [3]] 2 2 [2, 1] [[some 3, some 2], [none, some 2]]
    rfl rfl (by decide) rfl (by with_unfolding_all rfl)).1

/-! ### Two-run determinism of `query` (claim C4) -/

theorem rand_argmax_singleton {u : List Val} {g : RNG} {j i : ℕ} {g2 : RNG}
    (hties : argmaxTies u = [j]) (h : rand_argmax u g = some (i, g2)) :
    i = j := by
  unfold rand_argmax at h
  rw [hties] at h
  have hlen : ([j] : List ℕ).length = 1 := rfl
  rw [hlen, Nat.mod_one] at h
  simp only [List.get?_cons_zero, Option.some.injEq, Prod.mk.injEq] at h
  exact h.1.symm

theorem ssw_query_ok_inv {w : SSW} {inner : Inner} {Xw : Mat} {yw : List Val}
    {cw : Cands} {bs : ℕ} {ru : Bool} {o1 : SSWOut} {w1 : SSW}
    (h : ssw_query w inner Xw yw cw bs ru = .ok (o1, w1)) :
    o1 = (ssw_query_go w inner Xw yw cw bs ru).1 ∧ w1 = w := by
  unfold ssw_query at h
  by_cases h1 : w.qs_is_pool = false
  · rw [if_pos h1] at h
    simp at h
  · rw [if_neg h1] at h
    have hfin : ssw_query_go w inner Xw yw cw bs ru = (o1, w1) →
        o1 = (ssw_query_go w inner Xw yw cw bs ru).1 ∧ w1 = w := by
      intro hgo
      refine ⟨(congrArg Prod.fst hgo).symm, ?_⟩
      have h2 := congrArg Prod.snd hgo
      rw [ssw_go_state] at h2
      exact h2.symm
    cases hmc : w.max_candidates with
    | invalid => rw [hmc] at h; simp at h
    | int n =>
      rw [hmc] at h
      dsimp only at h
      by_cases h2 : n < 1
      · rw [if_pos h2] at h; simp at h
      · rw [if_neg h2] at h
        simp only [Except.ok.injEq] at h
        exact hfin h
    | float q =>
      rw [hmc] at h
      dsimp only at h
      by_cases h2 : 0 < q ∧ q ≤ 1
      · rw [if_pos h2] at h
        simp only [Except.ok.injEq] at h
        exact hfin h
      · rw [if_neg h2] at h; simp at h

theorem eer_query_ok_inv {s : EER} {logf : ℚ → ℚ} {eps : ℚ} {clf : Clf}
    {X_cand X : Mat} {y : List Val} {i1 : List ℕ} {u1 : List ℚ} {s1 : EER}
    (h : eer_query s logf eps clf X_cand X y = .ok (i1, u1, s1)) :
    ∃ j g2,
      u1 = expected_error_reduction logf eps clf X_cand X y s.classes
        (match s.C with | none => oneMinusEye s.classes.length | some M => M)
        s.method ∧
      rand_argmax (u1.map some) (checkRandomState s.rs) = some (j, g2) ∧
      i1 = [j] ∧
      s1 = { s with
        C := some (match s.C with
          | none => oneMinusEye s.classes.length
          | some M => M),
        rs := .gen g2 } := by
  unfold eer_query at h
  by_cases h1 : s.clf_is_cfe = false
  · rw [if_pos h1] at h; simp at h
  · rw [if_neg h1] at h
    cases hccp : check_classifier_params s.classes s.C with
    | error e => rw [hccp] at h; simp at h
    | ok u =>
      rw [hccp] at h
      simp only at h
      by_cases h3 : s.clf_classes ≠ s.classes
      · rw [if_pos h3] at h; simp at h
      · rw [if_neg h3] at h
        try dsimp only at h
        by_cases h4 : s.method ∉ (["emr", "csl", "log_loss"] : List String)
        · rw [if_pos h4] at h; simp at h
        · rw [if_neg h4] at h
          by_cases h5 : 0 < X.length ∧ 0 < X_cand.length ∧
              (X.getD 0 []).length ≠ (X_cand.getD 0 []).length
          · rw [if_pos h5] at h; simp at h
          · rw [if_neg h5] at h
            try dsimp only at h
            cases hra : rand_argmax
                ((expected_error_reduction logf eps clf X_cand X y s.classes
                  (match s.C with
                    | none => oneMinusEye s.classes.length
                    | some M => M) s.method).map some)
                (checkRandomState s.rs) with
            | none => rw [hra] at h; simp at h
            | some p =>
              obtain ⟨j, g2⟩ := p
              rw [hra] at h
              simp only [Except.ok.injEq, Prod.mk.injEq] at h
              obtain ⟨hi, hu, hs⟩ := h
              refine ⟨j, g2, hu.symm, ?_, hi.symm, hs.symm⟩
              rw [hu] at hra
              exact hra

/-- C4 (amended): `SubSamplingWrapper.query` writes no attribute, so the
returned object state equals the input state and an identical second call
returns the identical result (and this extends to any deterministic inner
strategy).  `ExpectedErrorReduction.query`, however, stores the advanced
random generator in `self.random_state`; an identical second call therefore
returns the same utilities always, and the same index batch whenever the
arg-max over the utilities is unique, but it may pick a different tied
index otherwise (see the counterexample). -/
theorem query_two_run_determinism (w : SSW) (inner : Inner) (Xw : Mat)
    (yw : List Val) (cw : Cands) (bs : ℕ) (ru : Bool) (s : EER)
    (logf : ℚ → ℚ) (eps : ℚ) (clf : Clf) (X_cand X : Mat) (y : List Val) :
    (∀ o1 w1, ssw_query w inner Xw yw cw bs ru = .ok (o1, w1) →
      w1 = w ∧ ssw_query w1 inner Xw yw cw bs ru = .ok (o1, w1)) ∧
    (∀ i1 u1 s1 r2, eer_query s logf eps clf X_cand X y = .ok (i1, u1, s1) →
      eer_query s1 logf eps clf X_cand X y = .ok r2 →
      r2.2.1 = u1 ∧ ∀ j, argmaxTies (u1.map some) = [j] → r2.1 = i1) := by
  constructor
  · intro o1 w1 hcall
    obtain ⟨_, hw⟩ := ssw_query_ok_inv hcall
    subst hw
    exact ⟨rfl, hcall⟩
  · intro i1 u1 s1 r2 h1 h2
    obtain ⟨j1, g1, hu1, hra1, hi1, hs1⟩ := eer_query_ok_inv h1
    obtain ⟨j2, g2, hu2, hra2, hi2, hs2⟩ := eer_query_ok_inv h2
    subst hs1
    dsimp only at hu2 hra2
    have huu : r2.2.1 = u1 := by rw [hu2, hu1]
    refine ⟨huu, ?_⟩
    intro j hties
    have hj1 : j1 = j := rand_argmax_singleton hties hra1
    have hj2 : j2 = j := by
      refine rand_argmax_singleton ?_ hra2
      rw [huu]
      exact hties
    rw [hi1, hi2, hj1, hj2]

/-- C4 as stated is false: `ExpectedErrorReduction.query` assigns the
instantiated generator to `self.random_state` (line 100) and the tie-break
draw advances it, so with tied utilities two consecutive identical calls on
the same strategy object return different index batches. -/
theorem eer_query_two_calls_counterexample :
    eer_query ⟨true, [0, 1], [0, 1], "emr", some [[0, 1], [1, 0]], .seed 0⟩
        (fun _ => 0) 0 clfHalf [[0], [1]] [] [] =
      .ok ([0], [-1, -1],
        ⟨true, [0, 1], [0, 1], "emr", some [[0, 1], [1, 0]], .gen ⟨0, 1⟩⟩) ∧
    eer_query ⟨true, [0, 1], [0, 1], "emr", some [[0, 1], [1, 0]], .gen ⟨0, 1⟩⟩
        (fun _ => 0) 0 clfHalf [[0], [1]] [] [] =
      .ok ([1], [-1, -1],
        ⟨true, [0, 1], [0, 1], "emr", some [[0, 1], [1, 0]], .gen ⟨0, 2⟩⟩) ∧
    ([0] : List ℕ) ≠ [1] := by
  refine ⟨?_, ?_, by decide⟩ <;> with_unfolding_all rfl

theorem query_two_run_determinism_witness :
    ((⟨true, .int 5, .seed 0⟩ : SSW) = ⟨true, .int 5, .seed 0⟩ ∧
      ssw_query ⟨true, .int 5, .seed 0⟩ innerSum [[0], [1], [2]]
          [none, none, some 0] .all 1 false =
        .ok (⟨[0], none, false⟩, ⟨true, .int 5, .seed 0⟩)) ∧
    ([-2, -3] : List ℚ) = [-2, -3] ∧ ([0] : List ℕ) = [0] := by
  have hthm := query_two_run_determinism ⟨true, .int 5, .seed 0⟩ innerSum
    [[0], [1], [2]] [none, none, some 0] .all 1 false
    ⟨true, [0, 1], [0, 1], "emr", some [[1, 1], [1, 2]], .seed 0⟩
    (fun _ => 0) 0 clfStep [[0], [1]] [] []
  have hw := hthm.1 ⟨[0], none, false⟩ ⟨true, .int 5, .seed 0⟩ rfl
  have he := hthm.2 [0] [-2, -3]
    ⟨true, [0, 1], [0, 1], "emr", some [[1, 1], [1, 2]], .gen ⟨0, 1⟩⟩
    ([0], [-2, -3],
      ⟨true, [0, 1], [0, 1], "emr", some [[1, 1], [1, 2]], .gen ⟨0, 2⟩⟩)
    (by with_unfolding_all rfl) (by with_unfolding_all rfl)
  exact ⟨hw, he.1, he.2 0 (by with_unfolding_all rfl)⟩

/-! ### Core-Set utilities are distances, hence non-negative (claim C9) -/

theorem foldl_min_mem (x : ℚ) (xs : List ℚ) : xs.foldl min x ∈ x :: xs := by
  induction xs generalizing x with
  | nil => exact List.mem_singleton.mpr rfl
  | cons y ys ih =>
    have h := ih (min x y)
    rw [List.foldl_cons]
    rcases List.mem_cons.mp h with h1 | h1
    · rcases min_choice x y with hm | hm
      · rw [h1, hm]; exact List.mem_cons_self _ _
      · rw [h1, hm]; exact List.mem_cons_of_mem _ (List.mem_cons_self _ _)
    · exact List.mem_cons_of_mem _ (List.mem_cons_of_mem _ h1)

theorem sqDist_nonneg (a b : List ℚ) : 0 ≤ sqDist a b := by
  unfold sqDist
  apply List.sum_nonneg
  intro q hq
  obtain ⟨p, _, hpe⟩ := List.mem_map.mp hq
  rw [← hpe]
  exact sq_nonneg _

theorem minDistTo_nonneg (x : List ℚ) (R : Mat) : 0 ≤ minDistTo x R := by
  cases R with
  | nil => exact le_refl 0
  | cons r rs =>
    have hmem := foldl_min_mem (sqDist x r) (rs.map (sqDist x))
    show 0 ≤ (rs.map (sqDist x)).foldl min (sqDist x r)
    rcases List.mem_cons.mp hmem with h1 | h1
    · rw [h1]; exact sqDist_nonneg x r
    · obtain ⟨b2, _, hbe⟩ := List.mem_map.mp h1
      rw [← hbe]
      exact sqDist_nonneg x b2

theorem coreSetUtilities_entry {X : Mat} {elig : List Bool} {R : Mat}
    {i : ℕ} {q : ℚ} (h : nth (coreSetUtilities X elig R) i = some q) :
    q = minDistTo (X.getD i []) R := by
  by_cases hi : i < X.length
  · unfold coreSetUtilities nth at h
    rw [getD_map_lt _ none 0 _ i (by simpa using hi), getD_range_lt _ i hi] at h
    by_cases he : elig.getD i false
    · rw [if_pos he] at h
      exact (Option.some.inj h).symm
    · rw [if_neg he] at h
      exact absurd h (by simp)
  · have hnone : nth (coreSetUtilities X elig R) i = none := by
      apply nth_le_length
      unfold coreSetUtilities
      simpa using Nat.le_of_not_lt hi
    rw [hnone] at h
    cases h

theorem coreSetLoop_rows (b : ℕ) :
    ∀ (X : Mat) (elig : List Bool) (R : Mat) (g : RNG),
      ∀ row ∈ (coreSetLoop b X elig R g).2,
        ∃ e2 R2, row = coreSetUtilities X e2 R2 := by
  induction b with
  | zero => intro X elig R g row h; cases h
  | succ b ih =>
    intro X elig R g row h
    cases hr : rand_argmax (coreSetUtilities X elig R) g with
    | none => simp only [coreSetLoop, hr] at h; cases h
    | some p =>
      obtain ⟨i, g2⟩ := p
      simp only [coreSetLoop, hr] at h
      rcases List.mem_cons.mp h with h1 | h1
      · exact ⟨elig, R, h1⟩
      · exact ih X _ _ g2 row h1

/-- C9: every non-`NaN` entry of every Core-Set utility row equals the
distance from that candidate to its nearest reference point of the
reference set in force at that batch step, and is therefore `≥ 0`
(distances; squared Euclidean distance in the model, monotone-equivalent to
the Euclidean one).  The degenerate all-identical-rows case is the witness. -/
theorem coreSet_utilities_nonneg (X : Mat) (y : List Val) (b : ℕ) (g : RNG) :
    ∀ row ∈ (coreSetQuery X y b g).2, ∀ i q, nth row i = some q →
      (∃ e2 R2, row = coreSetUtilities X e2 R2 ∧
        q = minDistTo (X.getD i []) R2) ∧ 0 ≤ q := by
  intro row hrow i q hq
  obtain ⟨e2, R2, hre⟩ := coreSetLoop_rows b X _ _ g row hrow
  subst hre
  have hqe := coreSetUtilities_entry hq
  exact ⟨⟨e2, R2, rfl, hqe⟩, hqe ▸ minDistTo_nonneg _ _⟩

theorem coreSet_utilities_nonneg_witness :
    [none, none, some 0, some 0, some 0, some 0, some 0, some 0, some 0, some 0]
      ∈ (coreSetQuery (List.replicate 10 [1, 1])
        [some 0, some 1, none, none, none, none, none, none, none, none]
        1 ⟨0, 0⟩).2 ∧
    (0 : ℚ) ≤ 0 := by
  have hmem : [none, none, some 0, some 0, some 0, some 0, some 0, some 0,
      some 0, some 0]
      ∈ (coreSetQuery (List.replicate 10 [1, 1])
        [some 0, some 1, none, none, none, none, none, none, none, none]
        1 ⟨0, 0⟩).2 := by
    with_unfolding_all decide
  exact ⟨hmem,
    (coreSet_utilities_nonneg (List.replicate 10 [1, 1])
      [some 0, some 1, none, none, none, none, none, none, none, none]
      1 ⟨0, 0⟩ _ hmem 2 0 (by decide)).2⟩

end Skactiveml
